import Mathlib

/-!
# btcbot: the trading decision loop

A shallow embedding of `btcbot.go` (package `main`).  The program resolves three
settings from flags and environment, opens an sqlite store, loads the single
`config` row into four local variables and then loops forever: fetch the ticker,
report a sale candidate from table `btcprice`, lower the local `buyrate` when the
price is low enough, sleep five seconds.

Conventions of the embedding:

* Go `int` is the 64-bit two's complement integer of the usual targets; values
  are carried as `Int` and every subtraction of the program goes through
  `sub64`, which wraps.
* `float64` values are carried exactly as sign, significand and binary exponent;
  each operation rounds its exact result to 53 significant bits, ties to even.
* The store and the price feed are the environment: every call that can fail in
  the source takes its outcome from an explicit input of the tick.
-/

namespace Btcbot

/-! ## Machine integers -/

/-- Smallest value of a Go `int` (64 bit). -/
def minInt64 : Int := -9223372036854775808

/-- Largest value of a Go `int` (64 bit). -/
def maxInt64 : Int := 9223372036854775807

/-- The integer is representable as a Go `int`. -/
def IsInt64 (x : Int) : Prop := minInt64 ≤ x ∧ x ≤ maxInt64

instance (x : Int) : Decidable (IsInt64 x) := by
  unfold IsInt64
  exact inferInstance

/-- Two's complement reduction of an exact integer result to 64 bits. -/
def wrap64 (x : Int) : Int := (x + 9223372036854775808) % 18446744073709551616 - 9223372036854775808

/-- Go `a - b` on `int` operands. -/
def sub64 (a b : Int) : Int := wrap64 (a - b)

/-! ## Decimal prices (`shopspring/decimal`) -/

/-- A `decimal.Decimal`: the number `value * 10 ^ exp`. -/
structure Decimal where
  value : Int
  exp : Int
  deriving DecidableEq, Repr

/-- `decimal.NewFromInt`. -/
def Decimal.NewFromInt (v : Int) : Decimal := ⟨v, 0⟩

/-- `Decimal.Mul`: coefficients multiply, exponents add. -/
def Decimal.Mul (d d2 : Decimal) : Decimal := ⟨d.value * d2.value, d.exp + d2.exp⟩

/-- `Decimal.IntPart`: rescale to exponent zero (the quotient truncates toward
zero) and take the low 64 bits as an `int64`. -/
def Decimal.IntPart (d : Decimal) : Int :=
  wrap64 (if 0 ≤ d.exp then d.value * 10 ^ d.exp.toNat else Int.tdiv d.value (10 ^ (-d.exp).toNat))

/-- The `bittrex.Ticker` returned by `GetTicker`. -/
structure Ticker where
  Bid : Decimal
  Ask : Decimal
  Last : Decimal
  deriving DecidableEq, Repr

/-- Line 112: `last := int(ticker.Last.Mul(decimal.NewFromInt(1000)).IntPart())`. -/
def lastOf (ticker : Ticker) : Int := (ticker.Last.Mul (Decimal.NewFromInt 1000)).IntPart

/-! ## binary64 arithmetic for the fee -/

/-- A finite `float64`: the number `(-1)^neg * man * 2 ^ exp`.  Every value the
program forms is zero or has magnitude between `2 ^ (-10)` and `2 ^ 64`, so the
exponent range of the format is never reached and is not represented. -/
structure F64 where
  neg : Bool
  man : Nat
  exp : Int
  deriving DecidableEq, Repr

/-- Bit length by repeated halving, at most `fuel` halvings. -/
def bitLenAux : Nat → Nat → Nat
  | 0, _ => 0
  | fuel + 1, n => if n = 0 then 0 else bitLenAux fuel (n / 2) + 1

/-- Number of binary digits of `n` (zero for `0`). -/
def bitLen (n : Nat) : Nat := bitLenAux n n

/-- Number of bits dropped when a significand is cut to 53 bits. -/
def F64.shift (m : Nat) : Nat := bitLen m - 53

/-- The significand cut to 53 bits, rounded to nearest, ties to even. -/
def F64.roundMan (m : Nat) : Nat :=
  let s := F64.shift m
  let q := m / 2 ^ s
  let r := m % 2 ^ s
  if 2 * r < 2 ^ s then q
  else if 2 * r = 2 ^ s ∧ q % 2 = 0 then q
  else q + 1

/-- Round the exact value `(-1)^neg * m * 2 ^ e` to a `float64`. -/
def F64.round (neg : Bool) (m : Nat) (e : Int) : F64 :=
  ⟨neg, F64.roundMan m, e + (F64.shift m : Int)⟩

/-- Conversion `float64(i)` of an `int`. -/
def F64.ofInt (i : Int) : F64 := F64.round (decide (i < 0)) i.natAbs 0

/-- Product of two `float64` values: the exact product, rounded once. -/
def F64.mul (a b : F64) : F64 := F64.round (xor a.neg b.neg) (a.man * b.man) (a.exp + b.exp)

/-- Conversion `int(f)`: the fraction is discarded (truncation toward zero). -/
def F64.toInt (a : F64) : Int :=
  let mag : Nat := if 0 ≤ a.exp then a.man * 2 ^ a.exp.toNat else a.man / 2 ^ (-a.exp).toNat
  if a.neg then -(mag : Int) else (mag : Int)

/-- The constant `0.0015` as a `float64`: `0x1.89374bc6a7efap-10`. -/
def c0015 : F64 := ⟨false, 6917529027641082, -62⟩

/-- Line 135: `int(0.0015*float64(last))`. -/
def fee (last : Int) : Int := (F64.mul c0015 (F64.ofInt last)).toInt

/-! ## The store -/

/-- A row of table `btcprice`. -/
structure Lot where
  id : Int
  rate : Int
  amount : Int
  buytime : Int
  deriving DecidableEq, Repr

/-- A row of table `config`. -/
structure ConfigRow where
  id : Int
  usdbalance : Int
  buyrate : Int
  amount : Int
  stagnantwait : Int
  deriving DecidableEq, Repr

/-- The sqlite database: its two tables, rows in storage order. -/
structure Store where
  btcprice : List Lot
  config : List ConfigRow
  deriving DecidableEq, Repr

/-- The seed row inserted when the database file did not exist (line 72). -/
def seedConfig : ConfigRow := ⟨1, 1000000, 9200000, 100000, 24⟩

/-- `order by rate asc`: insertion of a row into rows already in ascending rate
order, after the rows of smaller or equal rate. -/
def insertByRate (l : Lot) : List Lot → List Lot
  | [] => [l]
  | x :: xs => if x.rate ≤ l.rate then x :: insertByRate l xs else l :: x :: xs

/-- `order by rate asc` over a row list. -/
def orderByRate : List Lot → List Lot
  | [] => []
  | x :: xs => insertByRate x (orderByRate xs)

/-- The statement of line 115 run with parameter `thr`:
`select id, amount, rate from btcprice where rate <= ? order by rate asc limit 1`. -/
def sellQuery (db : Store) (thr : Int) : List Lot :=
  (orderByRate (db.btcprice.filter (fun l => decide (l.rate ≤ thr)))).take 1

/-- The statement of line 86: `select ... from config limit 1`. -/
def configQuery (db : Store) : List ConfigRow := db.config.take 1

/-! ## Start-up (lines 33 to 100) -/

/-- The parsed command line (the `opts` struct). -/
structure Opts where
  Prefix : String
  Database : String
  Key : String
  Secret : String
  deriving DecidableEq, Repr

/-- The three settings after lines 39 to 51. -/
structure Settings where
  database : String
  key : String
  secret : String
  deriving DecidableEq, Repr

/-- Lines 39 to 51: read the environment, then let a non-empty flag win. -/
def resolveSettings (opts : Opts) (getenv : String → String) : Settings :=
  let database := getenv (opts.Prefix ++ "DATABASE")
  let key := getenv (opts.Prefix ++ "BITTREX_KEY")
  let secret := getenv (opts.Prefix ++ "BITTREX_SECRET")
  let database := if opts.Database ≠ "" then opts.Database else database
  let key := if opts.Key ≠ "" then opts.Key else key
  let secret := if opts.Secret ≠ "" then opts.Secret else secret
  ⟨database, key, secret⟩

/-- The condition of line 53. -/
def settingsMissing (c : Settings) : Bool :=
  c.database == "" || c.key == "" || c.secret == ""

/-- Outcomes of the store calls made while the `config` row is loaded. -/
structure LoadCalls where
  queryErr : Option String
  nextErr : Option String
  scanErr : Option String
  deriving DecidableEq, Repr

/-- The local variables of `main` that live across iterations, with the store. -/
structure State where
  db : Store
  usdbalance : Int
  buyrate : Int
  amount : Int
  swait : Int
  deriving DecidableEq, Repr

/-- Lines 86 to 100.  `rows.Next()` is called without looking at its result; when
it reported no row (none stored, or an error while stepping) the rows are closed
and `rows.Scan` returns an error, which is fatal like a failed conversion. -/
def loadConfig (db : Store) (io : LoadCalls) : Except String State :=
  match io.queryErr with
  | some e => .error e
  | none =>
    match io.nextErr with
    | some e => .error e
    | none =>
      match configQuery db with
      | [] => .error "sql: Rows are closed"
      | row :: _ =>
        match io.scanErr with
        | some e => .error e
        | none => .ok ⟨db, row.usdbalance, row.buyrate, row.amount, row.stagnantwait⟩

/-- What `os.Stat` returned: a `FileInfo` (of which only `IsDir` is used) with a
`nil` error, or a `nil` `FileInfo` with an error that either is or is not a
not-exist error. -/
inductive StatResult where
  | info (isDir : Bool)
  | notExist
  | otherErr (e : String)
  deriving DecidableEq, Repr

/-- Lines 23 to 29.  A not-exist error gives `false`; after any other error
`info` is `nil` and `info.IsDir()` panics, which is the result `none`. -/
def fileExists (st : StatResult) : Option Bool :=
  match st with
  | .notExist => some false
  | .info isDir => some (!isDir)
  | .otherErr _ => none

/-- Everything start-up takes from outside the program. -/
structure StartEnv where
  getenv : String → String
  stat : StatResult
  db : Store
  openErr : Option String
  execErr : Option String
  load : LoadCalls

/-- How `main` leaves its start-up phase: `log.Fatal` or a panic before
`sql.Open`, `log.Fatal` after it, the `return` of line 77, or the loop. -/
inductive Startup where
  | fatalBeforeOpen (msg : String)
  | panicBeforeOpen (msg : String)
  | fatalAfterOpen (msg : String)
  | returned
  | loop (s : State)
  deriving DecidableEq, Repr

/-- The process ended before `sql.Open` was reached. -/
def Startup.diedBeforeOpen : Startup → Bool
  | .fatalBeforeOpen _ => true
  | .panicBeforeOpen _ => true
  | _ => false

/-- Lines 59 to 100: open the store, create and seed it when the file did not
exist, load the `config` row. -/
def openAndLoad (dbExists : Bool) (env : StartEnv) : Startup :=
  match env.openErr with
  | some e => .fatalAfterOpen e
  | none =>
    if dbExists then
      match loadConfig env.db env.load with
      | .error e => .fatalAfterOpen e
      | .ok s => .loop s
    else
      match env.execErr with
      | some _ => .returned
      | none =>
        match loadConfig ⟨[], [seedConfig]⟩ env.load with
        | .error e => .fatalAfterOpen e
        | .ok s => .loop s

/-- Lines 39 to 100, after the flags were parsed into `opts`. -/
def startWith (opts : Opts) (env : StartEnv) : Startup :=
  let c := resolveSettings opts env.getenv
  if settingsMissing c then .fatalBeforeOpen "Please specify a database + Bittrex key and secret!"
  else
    match fileExists env.stat with
    | none => .panicBeforeOpen "runtime error: invalid memory address or nil pointer dereference"
    | some dbExists => openAndLoad dbExists env

/-- Lines 33 to 100: `flags.ParseArgs` either fails or fills `opts`. -/
def start (parsed : Except String Opts) (env : StartEnv) : Startup :=
  match parsed with
  | .error e => .fatalBeforeOpen ("Could not parse input parameters: " ++ e)
  | .ok opts => startWith opts env

/-! ## One iteration of the loop (lines 102 to 148) -/

/-- What `bittrex.GetTicker` returned: a ticker and an error, `none` for `nil`. -/
structure FeedResult where
  ticker : Ticker
  err : Option String
  deriving DecidableEq, Repr

/-- Outcomes of the store calls of one iteration.  `nextErr` is an error met while
stepping to the first row: `rows.Next()` then reports `false`. -/
structure StoreCalls where
  prepareErr : Option String
  queryErr : Option String
  nextErr : Option String
  scanErr : Option String
  deriving DecidableEq, Repr

/-- Lines written to standard output. -/
inductive Output where
  | tickerLine (r : FeedResult)
  | errLine (e : String)
  | sellLine (id amount rate last profit : Int)
  | buyLine (last : Int)
  deriving DecidableEq, Repr

/-- How an iteration ends: it reaches the sleep of line 147 and loops, or
`log.Fatal` ends the process. -/
inductive Outcome where
  | next (s : State) (out : List Output)
  | fatal (msg : String) (out : List Output)
  deriving DecidableEq, Repr

/-- Lines 139 to 144. -/
def evalBuy (s : State) (last : Int) : State × List Output :=
  if last ≤ sub64 s.buyrate s.amount then ({ s with buyrate := last }, [Output.buyLine last])
  else (s, [])

/-- Lines 114 to 137: the rows the loop body sees, then the report. -/
def evalSell (s : State) (last : Int) (io : StoreCalls) : Except String (List Output) :=
  match io.prepareErr with
  | some e => .error e
  | none =>
    match io.queryErr with
    | some e => .error e
    | none =>
      let rows := match io.nextErr with
        | some _ => []
        | none => sellQuery s.db (sub64 last s.amount)
      match rows with
      | [] => .ok []
      | l :: _ =>
        match io.scanErr with
        | some e => .error e
        | none => .ok [Output.sellLine l.id l.amount l.rate last (sub64 (sub64 last l.rate) (fee last))]

/-- One pass through the body of the `for` loop. -/
def tick (s : State) (feed : FeedResult) (io : StoreCalls) : Outcome :=
  match feed.err with
  | some e => .next s [Output.tickerLine feed, Output.errLine e]
  | none =>
    let last := lastOf feed.ticker
    match evalSell s last io with
    | .error e => .fatal e [Output.tickerLine feed]
    | .ok sold =>
      let b := evalBuy s last
      .next b.1 (Output.tickerLine feed :: (sold ++ b.2))

/-- The `buyrate` after each completed iteration of a run, until the inputs end
or the process dies. -/
def thresholds (s : State) : List (FeedResult × StoreCalls) → List Int
  | [] => []
  | i :: rest =>
    match tick s i.1 i.2 with
    | .next s2 _ => s2.buyrate :: thresholds s2 rest
    | .fatal _ _ => []

/-- The state after a run, `none` when the process died on the way. -/
def run (s : State) : List (FeedResult × StoreCalls) → Option State
  | [] => some s
  | i :: rest =>
    match tick s i.1 i.2 with
    | .next s2 _ => run s2 rest
    | .fatal _ _ => none

/-- The iteration printed a "Going to buy" line. -/
def Outcome.buys : Outcome → Bool
  | .next _ out => out.any (fun o => match o with
      | .buyLine _ => true
      | _ => false)
  | .fatal _ _ => false

/-- All store calls succeed. -/
def noFault : StoreCalls := ⟨none, none, none, none⟩

/-- A feed answer carrying the scaled price `p / 1000`. -/
def quote (p : Int) : FeedResult := ⟨⟨⟨0, 0⟩, ⟨0, 0⟩, ⟨p, -3⟩⟩, none⟩

/-- The state loaded from the seed row, with an empty lot table. -/
def seedState : State := ⟨⟨[], [seedConfig]⟩, 1000000, 9200000, 100000, 24⟩

/-- A lot table with the three rates 9,100,000, 9,000,000 and 9,050,000, margin
50,000. -/
def threeLots : State :=
  ⟨⟨[⟨1, 9100000, 1000, 0⟩, ⟨2, 9000000, 1000, 0⟩, ⟨3, 9050000, 1000, 0⟩], [seedConfig]⟩,
    1000000, 9200000, 50000, 24⟩

/-- Flags that give all three settings, the database under a path whose parent
`feed.txt` is a regular file. -/
def flagsUnderFile : Opts := ⟨"", "feed.txt/x.db", "FK", "FS"⟩

/-- A start-up in which `os.Stat` fails with an error that is not a not-exist
error, with an empty environment and every later call succeeding. -/
def statFails : StartEnv :=
  ⟨fun _ => "", .otherErr "stat feed.txt/x.db: not a directory", ⟨[], []⟩, none, none,
    ⟨none, none, none⟩⟩

/-- The first row of a list in ascending rate order has the least rate. -/
def HeadLeast : List Lot → Prop
  | [] => True
  | l :: rest => ∀ x ∈ rest, l.rate ≤ x.rate

/-- Following the spec: the fee is 0.15% of the price (`0.0015 * price`), cut
toward zero. -/
def feeSpec (price : Int) : Int := Int.tdiv (15 * price) 10000

/-! ## Arithmetic lemmas -/

theorem wrap64_of_isInt64 (x : Int) (h : IsInt64 x) : wrap64 x = x := by
  unfold IsInt64 minInt64 maxInt64 at h
  unfold wrap64
  omega

theorem isInt64_wrap64 (x : Int) : IsInt64 (wrap64 x) := by
  unfold IsInt64 minInt64 maxInt64 wrap64
  omega

theorem sub64_of_isInt64 (a b : Int) (h : IsInt64 (a - b)) : sub64 a b = a - b :=
  wrap64_of_isInt64 _ h

/-! ## Lemmas on the sale query -/

theorem mem_insertByRate (l x : Lot) (xs : List Lot) :
    x ∈ insertByRate l xs ↔ x = l ∨ x ∈ xs := by
  induction xs with
  | nil => simp [insertByRate]
  | cons y ys ih =>
    unfold insertByRate
    split
    · simp only [List.mem_cons, ih]
      tauto
    · simp only [List.mem_cons]

theorem mem_orderByRate (x : Lot) (xs : List Lot) : x ∈ orderByRate xs ↔ x ∈ xs := by
  induction xs with
  | nil => simp [orderByRate]
  | cons y ys ih => simp [orderByRate, mem_insertByRate, ih]

theorem headLeast_insertByRate (l : Lot) (xs : List Lot) (h : HeadLeast xs) :
    HeadLeast (insertByRate l xs) := by
  cases xs with
  | nil => simp [insertByRate, HeadLeast]
  | cons y ys =>
    unfold insertByRate
    split
    · rename_i hle
      intro x hx
      rcases (mem_insertByRate l x ys).1 hx with rfl | hmem
      · exact hle
      · exact h x hmem
    · rename_i hnle
      intro x hx
      rcases List.mem_cons.1 hx with rfl | hmem
      · omega
      · have := h x hmem
        omega

theorem headLeast_orderByRate (xs : List Lot) : HeadLeast (orderByRate xs) := by
  induction xs with
  | nil => simp [orderByRate, HeadLeast]
  | cons y ys ih => exact headLeast_insertByRate y _ ih

theorem orderByRate_eq_nil (xs : List Lot) : orderByRate xs = [] ↔ xs = [] := by
  constructor
  · intro h
    cases xs with
    | nil => rfl
    | cons y ys =>
      have : y ∈ orderByRate (y :: ys) := (mem_orderByRate y _).2 (List.mem_cons_self _ _)
      rw [h] at this
      cases this
  · rintro rfl
    rfl

/-- What the sale query returns: nothing when no row qualifies, otherwise one
stored row that qualifies and whose rate no qualifying row undercuts. -/
theorem sellQuery_spec (db : Store) (thr : Int) :
    (sellQuery db thr = [] ∧ ∀ x ∈ db.btcprice, ¬ x.rate ≤ thr) ∨
    (∃ l, sellQuery db thr = [l] ∧ l ∈ db.btcprice ∧ l.rate ≤ thr ∧
      ∀ x ∈ db.btcprice, x.rate ≤ thr → l.rate ≤ x.rate) := by
  unfold sellQuery
  have hmem := fun x => mem_orderByRate x (db.btcprice.filter (fun l => decide (l.rate ≤ thr)))
  have hleast := headLeast_orderByRate (db.btcprice.filter (fun l => decide (l.rate ≤ thr)))
  cases hord : orderByRate (db.btcprice.filter (fun l => decide (l.rate ≤ thr))) with
  | nil =>
    left
    refine ⟨rfl, ?_⟩
    intro x hx hle
    have hx2 : x ∈ db.btcprice.filter (fun l => decide (l.rate ≤ thr)) := by
      simp [List.mem_filter, hx, hle]
    rw [(orderByRate_eq_nil _).1 hord] at hx2
    cases hx2
  | cons l rest =>
    right
    rw [hord] at hmem hleast
    have hl := (hmem l).1 (List.mem_cons_self _ _)
    simp only [List.mem_filter, decide_eq_true_eq] at hl
    refine ⟨l, by simp, hl.1, hl.2, ?_⟩
    intro x hx hle
    have hx2 : x ∈ l :: rest := (hmem x).2 (by simp [List.mem_filter, hx, hle])
    rcases List.mem_cons.1 hx2 with rfl | hrest
    · exact le_refl _
    · exact hleast x hrest

/-! ## Lemmas on binary64 rounding -/

/-- The constant is a 53-bit significand and the multiple of `2 ^ (-62)` nearest
to `3 / 2000`. -/
theorem c0015_nearest :
    2 ^ 52 ≤ c0015.man ∧ c0015.man < 2 ^ 53 ∧ c0015.exp = -62 ∧
      3 * 2 ^ 62 ≤ 2000 * c0015.man ∧ 2 * (2000 * c0015.man - 3 * 2 ^ 62) < 2000 := by
  decide

theorem lt_two_pow_bitLenAux (fuel n : Nat) (h : n ≤ fuel) : n < 2 ^ bitLenAux fuel n := by
  induction fuel generalizing n with
  | zero =>
    have : n = 0 := by omega
    subst this
    simp [bitLenAux]
  | succ f ih =>
    unfold bitLenAux
    split
    · rename_i h0
      subst h0
      simp
    · have := ih (n / 2) (by omega)
      rw [pow_succ]
      omega

theorem two_pow_bitLenAux_le (fuel n : Nat) (h : n ≤ fuel) (hn : 0 < n) :
    2 ^ bitLenAux fuel n ≤ 2 * n := by
  induction fuel generalizing n with
  | zero => omega
  | succ f ih =>
    unfold bitLenAux
    rw [if_neg (by omega), pow_succ]
    by_cases h2 : n / 2 = 0
    · rw [h2]
      have : bitLenAux f 0 = 0 := by
        cases f <;> simp [bitLenAux]
      rw [this]
      omega
    · have := ih (n / 2) (by omega) (by omega)
      omega

theorem lt_two_pow_bitLen (n : Nat) : n < 2 ^ bitLen n := lt_two_pow_bitLenAux n n (le_refl n)

theorem two_pow_bitLen_le (n : Nat) (hn : 0 < n) : 2 ^ bitLen n ≤ 2 * n :=
  two_pow_bitLenAux_le n n (le_refl n) hn

theorem bitLen_le_of_lt (n k : Nat) (h : n < 2 ^ k) : bitLen n ≤ k := by
  by_cases hn : n = 0
  · subst hn
    simp [bitLen, bitLenAux]
  · by_contra hlt
    have h1 := two_pow_bitLen_le n (by omega)
    have h2 : 2 ^ (k + 1) ≤ 2 ^ bitLen n := Nat.pow_le_pow_right (by decide) (by omega)
    rw [pow_succ] at h2
    omega

theorem shift_eq_zero (m : Nat) (h : m < 2 ^ 53) : F64.shift m = 0 := by
  unfold F64.shift
  have := bitLen_le_of_lt m 53 h
  omega

theorem roundMan_of_lt (m : Nat) (h : m < 2 ^ 53) : F64.roundMan m = m := by
  unfold F64.roundMan
  simp [shift_eq_zero m h, Nat.mod_one]

/-- The dropped bits are at most a `2 ^ (-52)` fraction of the significand. -/
theorem shift_small (m : Nat) : 2 ^ F64.shift m = 1 ∨ 2 ^ 52 * 2 ^ F64.shift m ≤ m := by
  by_cases h : bitLen m ≤ 53
  · left
    unfold F64.shift
    simp [Nat.sub_eq_zero_of_le h]
  · right
    have hm : 0 < m := by
      by_contra h0
      have : m = 0 := by omega
      subst this
      simp [bitLen, bitLenAux] at h
    have h1 := two_pow_bitLen_le m hm
    have h2 : bitLen m = 53 + F64.shift m := by
      unfold F64.shift
      omega
    rw [h2, pow_add] at h1
    omega

theorem roundMan_ge (m : Nat) : m / 2 ^ F64.shift m ≤ F64.roundMan m := by
  unfold F64.roundMan
  simp only
  split
  · exact le_refl _
  · split
    · exact le_refl _
    · omega

theorem roundMan_le (m : Nat) :
    2 * (F64.roundMan m * 2 ^ F64.shift m) ≤ 2 * m + 2 ^ F64.shift m := by
  have hdm := Nat.div_add_mod m (2 ^ F64.shift m)
  have hmul : 2 ^ F64.shift m * (m / 2 ^ F64.shift m) = (m / 2 ^ F64.shift m) * 2 ^ F64.shift m :=
    Nat.mul_comm _ _
  unfold F64.roundMan
  simp only
  split
  · omega
  · split
    · omega
    · rw [Nat.add_mul]
      omega

theorem shift_product_le (n : Nat) (hn : n < 2 ^ 51) :
    F64.shift (6917529027641082 * n) ≤ 51 := by
  have h : 6917529027641082 * n < 2 ^ 104 := by
    norm_num at hn ⊢
    omega
  have := bitLen_le_of_lt _ 104 h
  unfold F64.shift
  omega

/-- Below `2 ^ 51` the rounded product, cut to an integer, is the exact quotient. -/
theorem feeMag_eq (n : Nat) (hn : n < 2 ^ 51) :
    F64.roundMan (6917529027641082 * n) / 2 ^ (62 - F64.shift (6917529027641082 * n))
      = 3 * n / 2000 := by
  have hs := shift_product_le n hn
  have hge := roundMan_ge (6917529027641082 * n)
  have hle := roundMan_le (6917529027641082 * n)
  have hsm := shift_small (6917529027641082 * n)
  have hxy : 2 ^ (62 - F64.shift (6917529027641082 * n)) * 2 ^ F64.shift (6917529027641082 * n)
      = 2 ^ 62 := by
    rw [← pow_add]
    congr 1
    omega
  generalize F64.shift (6917529027641082 * n) = s at *
  generalize F64.roundMan (6917529027641082 * n) = r at *
  have hX : 0 < 2 ^ s := Nat.pos_of_ne_zero (by positivity)
  have hY : 0 < 2 ^ (62 - s) := Nat.pos_of_ne_zero (by positivity)
  generalize hXe : 2 ^ s = X at *
  generalize hYe : 2 ^ (62 - s) = Y at *
  norm_num at hn hxy hsm
  -- lower bound
  have hlow : (3 * n / 2000) * Y ≤ r := by
    refine le_trans ?_ hge
    rw [Nat.le_div_iff_mul_le hX, Nat.mul_assoc, hxy]
    omega
  -- upper bound
  have hup : r < (3 * n / 2000 + 1) * Y := by
    have h1 : r * X < ((3 * n / 2000 + 1) * Y) * X := by
      rw [Nat.mul_assoc, hxy]
      rcases hsm with h1 | h1
      · omega
      · omega
    exact Nat.lt_of_mul_lt_mul_right h1
  exact Nat.div_eq_of_lt_le hlow hup

theorem ofInt_ofNat (n : Nat) (h : n < 2 ^ 53) : F64.ofInt (n : Int) = ⟨false, n, 0⟩ := by
  unfold F64.ofInt F64.round
  rw [Int.natAbs_ofNat, roundMan_of_lt n h, shift_eq_zero n h]
  have hlt : ¬ ((n : Int) < 0) := by omega
  simp [hlt]

theorem ofInt_neg_ofNat (n : Nat) (h : n < 2 ^ 53) (h0 : 0 < n) :
    F64.ofInt (-(n : Int)) = ⟨true, n, 0⟩ := by
  unfold F64.ofInt F64.round
  rw [Int.natAbs_neg, Int.natAbs_ofNat, roundMan_of_lt n h, shift_eq_zero n h]
  have hlt : (-(n : Int) < 0) := by omega
  simp [hlt]

/-- Truncating a product with the constant `0.0015`. -/
theorem toInt_mul_c0015 (b : Bool) (n : Nat) (hn : n < 2 ^ 51) :
    (F64.mul c0015 ⟨b, n, 0⟩).toInt
      = if b then -((3 * n / 2000 : Nat) : Int) else ((3 * n / 2000 : Nat) : Int) := by
  have hs := shift_product_le n hn
  have hmag := feeMag_eq n hn
  have hneg : ¬ (0 : Int) ≤ -62 + 0 + ((F64.shift (6917529027641082 * n) : Nat) : Int) := by omega
  have hnat : (-(-62 + 0 + ((F64.shift (6917529027641082 * n) : Nat) : Int))).toNat
      = 62 - F64.shift (6917529027641082 * n) := by omega
  show (if xor false b = true then
      -((if (0 : Int) ≤ -62 + 0 + ((F64.shift (6917529027641082 * n) : Nat) : Int) then
          F64.roundMan (6917529027641082 * n) *
            2 ^ (-62 + 0 + ((F64.shift (6917529027641082 * n) : Nat) : Int)).toNat
        else F64.roundMan (6917529027641082 * n) /
            2 ^ (-(-62 + 0 + ((F64.shift (6917529027641082 * n) : Nat) : Int))).toNat : Nat) : Int)
    else ((if (0 : Int) ≤ -62 + 0 + ((F64.shift (6917529027641082 * n) : Nat) : Int) then
          F64.roundMan (6917529027641082 * n) *
            2 ^ (-62 + 0 + ((F64.shift (6917529027641082 * n) : Nat) : Int)).toNat
        else F64.roundMan (6917529027641082 * n) /
            2 ^ (-(-62 + 0 + ((F64.shift (6917529027641082 * n) : Nat) : Int))).toNat : Nat) : Int)) = _
  rw [if_neg hneg, hnat, hmag]
  cases b <;> rfl

/-- For prices of magnitude below `2 ^ 51` the binary64 computation of the fee
returns exactly 0.15% of the price, cut toward zero. -/
theorem fee_eq_feeSpec (last : Int) (hlo : -2251799813685248 < last) (hhi : last < 2251799813685248) :
    fee last = feeSpec last := by
  unfold feeSpec fee
  rcases Int.lt_or_le last 0 with hneg | hpos
  · obtain ⟨n, hn⟩ : ∃ n : Nat, last = -(n : Int) := ⟨last.natAbs, by omega⟩
    subst hn
    have hn51 : n < 2 ^ 51 := by norm_num; omega
    rw [ofInt_neg_ofNat n (lt_trans hn51 (by norm_num)) (by omega), toInt_mul_c0015 true n hn51]
    rw [show (15 : Int) * -(n : Int) = -(((15 * n : Nat)) : Int) by push_cast; ring]
    rw [Int.neg_tdiv, show (10000 : Int) = ((10000 : Nat) : Int) by rfl, ← Int.ofNat_tdiv]
    simp only [if_true]
    congr 2
    omega
  · obtain ⟨n, hn⟩ : ∃ n : Nat, last = (n : Int) := ⟨last.toNat, by omega⟩
    subst hn
    have hn51 : n < 2 ^ 51 := by norm_num; omega
    rw [ofInt_ofNat n (lt_trans hn51 (by norm_num)), toInt_mul_c0015 false n hn51]
    rw [show (15 : Int) * (n : Int) = (((15 * n : Nat)) : Int) by push_cast; ring]
    rw [show (10000 : Int) = ((10000 : Nat) : Int) by rfl, ← Int.ofNat_tdiv]
    simp only [Bool.false_eq_true, if_false]
    congr 1
    omega

set_option maxRecDepth 8000 in
/-- Beyond that range the rounding shows: 9,007,199,254,741,999 is not a
`float64`, the conversion rounds it to the next multiple of 2000 and the computed
fee is one above 0.15% of the price cut toward zero. -/
theorem fee_large_price :
    fee 9007199254741999 = 13510798882113 ∧ feeSpec 9007199254741999 = 13510798882112 := by
  constructor <;> decide

/-! ## The loop body -/

/-- The sale evaluation prints nothing, or one "Going to sell" line for the row
the query returned. -/
theorem evalSell_out (s : State) (last : Int) (io : StoreCalls) (sold : List Output)
    (h : evalSell s last io = .ok sold) :
    sold = [] ∨ ∃ l : Lot, sellQuery s.db (sub64 last s.amount) = [l] ∧
      sold = [Output.sellLine l.id l.amount l.rate last (sub64 (sub64 last l.rate) (fee last))] := by
  rcases io with ⟨p, q, n, sc⟩
  cases p with
  | some e => simp [evalSell] at h
  | none =>
    cases q with
    | some e => simp [evalSell] at h
    | none =>
      cases n with
      | some e =>
        simp [evalSell] at h
        exact Or.inl h
      | none =>
        rcases sellQuery_spec s.db (sub64 last s.amount) with ⟨hq, _⟩ | ⟨l, hq, _⟩
        · simp [evalSell, hq] at h
          exact Or.inl h
        · cases sc with
          | some e => simp [evalSell, hq] at h
          | none =>
            simp [evalSell, hq] at h
            exact Or.inr ⟨l, hq, h.symm⟩

/-- A completed iteration that obtained a price: the sale evaluation went
through, and state and output are those of the two evaluations. -/
theorem tick_next_priced (s : State) (feed : FeedResult) (io : StoreCalls) (s2 : State)
    (out : List Output) (hfeed : feed.err = none) (h : tick s feed io = .next s2 out) :
    ∃ sold, evalSell s (lastOf feed.ticker) io = .ok sold ∧
      s2 = (evalBuy s (lastOf feed.ticker)).1 ∧
      out = Output.tickerLine feed :: (sold ++ (evalBuy s (lastOf feed.ticker)).2) := by
  unfold tick at h
  rw [hfeed] at h
  cases hs : evalSell s (lastOf feed.ticker) io with
  | error e => simp [hs] at h
  | ok sold =>
    simp only [hs, Outcome.next.injEq] at h
    exact ⟨sold, rfl, h.1.symm, h.2.symm⟩

theorem evalSell_noFault (s : State) (last : Int) :
    evalSell s last noFault =
      match sellQuery s.db (sub64 last s.amount) with
      | [] => .ok []
      | l :: _ => .ok [Output.sellLine l.id l.amount l.rate last
          (sub64 (sub64 last l.rate) (fee last))] := by
  unfold evalSell noFault
  rfl

/-- C1 (buy evaluation).  In an iteration that obtained a price `p` and whose sale
evaluation did not end the process, the buy fires exactly when `p` is at most the
trigger `buyrate - amount` the program computes; that trigger is the exact
difference whenever the difference is representable.  When the buy fires the new
`buyrate` is `p`, otherwise `buyrate` is unchanged. -/
theorem buy_evaluation (s : State) (feed : FeedResult) (io : StoreCalls) (sold : List Output)
    (hfeed : feed.err = none) (hsell : evalSell s (lastOf feed.ticker) io = .ok sold) :
    ∃ s2 out, tick s feed io = .next s2 out ∧
      ((tick s feed io).buys = true ↔ lastOf feed.ticker ≤ sub64 s.buyrate s.amount) ∧
      (IsInt64 (s.buyrate - s.amount) →
        ((tick s feed io).buys = true ↔ lastOf feed.ticker ≤ s.buyrate - s.amount)) ∧
      ((tick s feed io).buys = true → s2.buyrate = lastOf feed.ticker) ∧
      ((tick s feed io).buys = false → s2.buyrate = s.buyrate) := by
  have hout := evalSell_out s _ io sold hsell
  have htick : tick s feed io = .next (evalBuy s (lastOf feed.ticker)).1
      (Output.tickerLine feed :: (sold ++ (evalBuy s (lastOf feed.ticker)).2)) := by
    unfold tick
    rw [hfeed]
    simp only [hsell]
  have hbuys : (tick s feed io).buys = true ↔ lastOf feed.ticker ≤ sub64 s.buyrate s.amount := by
    rw [htick]
    by_cases hc : lastOf feed.ticker ≤ sub64 s.buyrate s.amount
    · rcases hout with rfl | ⟨l, _, rfl⟩ <;> simp [evalBuy, Outcome.buys, hc]
    · rcases hout with rfl | ⟨l, _, rfl⟩ <;> simp [evalBuy, Outcome.buys, hc]
  refine ⟨_, _, htick, hbuys, ?_, ?_, ?_⟩
  · intro hr
    rw [hbuys, sub64_of_isInt64 _ _ hr]
  · intro hb
    have := hbuys.1 hb
    unfold evalBuy
    rw [if_pos this]
  · intro hb
    have : ¬ lastOf feed.ticker ≤ sub64 s.buyrate s.amount := by
      intro h
      rw [hbuys.2 h] at hb
      cases hb
    unfold evalBuy
    rw [if_neg this]

/-- C1 at the boundary: threshold 9,200,000 and margin 100,000 give trigger
9,100,000; the price 9,100,000 fires and becomes the threshold, the price
9,100,001 does not fire. -/
theorem buy_evaluation_witness :
    ((quote 9100000).err = none ∧ evalSell seedState (lastOf (quote 9100000).ticker) noFault = .ok [] ∧
      ∃ s2 out, tick seedState (quote 9100000) noFault = .next s2 out ∧
        ((tick seedState (quote 9100000) noFault).buys = true ↔
          lastOf (quote 9100000).ticker ≤ sub64 seedState.buyrate seedState.amount) ∧
        (IsInt64 (seedState.buyrate - seedState.amount) →
          ((tick seedState (quote 9100000) noFault).buys = true ↔
            lastOf (quote 9100000).ticker ≤ seedState.buyrate - seedState.amount)) ∧
        ((tick seedState (quote 9100000) noFault).buys = true →
          s2.buyrate = lastOf (quote 9100000).ticker) ∧
        ((tick seedState (quote 9100000) noFault).buys = false → s2.buyrate = seedState.buyrate)) ∧
    lastOf (quote 9100000).ticker = 9100000 ∧
    tick seedState (quote 9100000) noFault =
      .next { seedState with buyrate := 9100000 }
        [Output.tickerLine (quote 9100000), Output.buyLine 9100000] ∧
    tick seedState (quote 9100001) noFault =
      .next seedState [Output.tickerLine (quote 9100001)] :=
  ⟨⟨by decide, rfl, buy_evaluation seedState (quote 9100000) noFault [] (by decide) rfl⟩,
    by decide, by decide, by decide⟩

/-- C3 (sell selection).  With `thr` the threshold `last - amount` the program
passes to the query (the exact difference whenever that is representable), the
sale evaluation selects a lot if and only if some stored lot has `rate ≤ thr`;
the selected lot is a stored lot with `rate ≤ thr` whose rate is at most the rate
of every stored lot with `rate ≤ thr`, and it is the lot that is reported. -/
theorem sell_selection (s : State) (last : Int) :
    ((∃ l, sellQuery s.db (sub64 last s.amount) = [l]) ↔
      ∃ x ∈ s.db.btcprice, x.rate ≤ sub64 last s.amount) ∧
    (∀ l, sellQuery s.db (sub64 last s.amount) = [l] →
      l ∈ s.db.btcprice ∧ l.rate ≤ sub64 last s.amount ∧
      (∀ x ∈ s.db.btcprice, x.rate ≤ sub64 last s.amount → l.rate ≤ x.rate) ∧
      evalSell s last noFault = .ok [Output.sellLine l.id l.amount l.rate last
        (sub64 (sub64 last l.rate) (fee last))]) ∧
    ((¬ ∃ x ∈ s.db.btcprice, x.rate ≤ sub64 last s.amount) → evalSell s last noFault = .ok []) ∧
    (IsInt64 (last - s.amount) → sub64 last s.amount = last - s.amount) := by
  have hspec := sellQuery_spec s.db (sub64 last s.amount)
  refine ⟨?_, ?_, ?_, sub64_of_isInt64 _ _⟩
  · constructor
    · rintro ⟨l, hl⟩
      rcases hspec with ⟨hnil, _⟩ | ⟨l2, hl2, hmem, hle, _⟩
      · rw [hnil] at hl
        cases hl
      · exact ⟨l2, hmem, hle⟩
    · rintro ⟨x, hx, hle⟩
      rcases hspec with ⟨_, hnone⟩ | ⟨l2, hl2, _⟩
      · exact absurd hle (hnone x hx)
      · exact ⟨l2, hl2⟩
  · intro l hl
    rcases hspec with ⟨hnil, _⟩ | ⟨l2, hl2, hmem, hle, hmin⟩
    · rw [hnil] at hl
      cases hl
    · rw [hl2] at hl
      cases hl
      refine ⟨hmem, hle, hmin, ?_⟩
      rw [evalSell_noFault, hl2]
  · intro hnone
    rcases hspec with ⟨hnil, _⟩ | ⟨l2, _, hmem, hle, _⟩
    · rw [evalSell_noFault, hnil]
    · exact absurd ⟨l2, hmem, hle⟩ hnone

/-- C3 on the lots with rates 9,000,000, 9,050,000 and 9,100,000 at price
9,200,000 and margin 50,000: the threshold is 9,150,000 and the lot of rate
9,000,000 is selected. -/
theorem sell_selection_witness :
    sub64 9200000 threeLots.amount = 9150000 ∧
    sellQuery threeLots.db (sub64 9200000 threeLots.amount) = [⟨2, 9000000, 1000, 0⟩] ∧
    ((⟨2, 9000000, 1000, 0⟩ : Lot) ∈ threeLots.db.btcprice ∧
      (⟨2, 9000000, 1000, 0⟩ : Lot).rate ≤ sub64 9200000 threeLots.amount ∧
      (∀ x ∈ threeLots.db.btcprice, x.rate ≤ sub64 9200000 threeLots.amount →
        (⟨2, 9000000, 1000, 0⟩ : Lot).rate ≤ x.rate) ∧
      evalSell threeLots 9200000 noFault = .ok [Output.sellLine 2 1000 9000000 9200000
        (sub64 (sub64 9200000 9000000) (fee 9200000))]) :=
  ⟨by decide, by decide, (sell_selection threeLots 9200000).2.1 ⟨2, 9000000, 1000, 0⟩ (by decide)⟩

/-- C4 (profit computation).  For a matched lot `l` the reported profit is the
program's `last - l.rate - fee`, where `fee` is the binary64 product of `0.0015`
and the price cut toward zero.  For prices of magnitude below `2 ^ 51` that fee
is exactly 0.15% of the price cut toward zero, and when the two subtractions are
representable the reported profit is the exact `last - l.rate - fee`. -/
theorem profit_computation (s : State) (last : Int) (l : Lot)
    (hsel : sellQuery s.db (sub64 last s.amount) = [l]) :
    evalSell s last noFault = .ok [Output.sellLine l.id l.amount l.rate last
      (sub64 (sub64 last l.rate) (fee last))] ∧
    (-2251799813685248 < last → last < 2251799813685248 → fee last = feeSpec last) ∧
    (IsInt64 (last - l.rate) → IsInt64 (last - l.rate - fee last) →
      sub64 (sub64 last l.rate) (fee last) = last - l.rate - fee last) := by
  refine ⟨?_, fee_eq_feeSpec last, ?_⟩
  · rw [evalSell_noFault, hsel]
  · intro h1 h2
    rw [sub64_of_isInt64 _ _ h1, sub64_of_isInt64 _ _ h2]

/-- C4 at price 9,300,000 with a matched lot of rate 9,000,000: the fee is 13,950
and the reported profit 286,050. -/
theorem profit_computation_witness :
    sellQuery (⟨⟨[⟨7, 9000000, 1000, 0⟩], [seedConfig]⟩, 1000000, 9200000, 100000, 24⟩ : State).db
      (sub64 9300000 100000) = [⟨7, 9000000, 1000, 0⟩] ∧
    fee 9300000 = 13950 ∧ feeSpec 9300000 = 13950 ∧
    (evalSell ⟨⟨[⟨7, 9000000, 1000, 0⟩], [seedConfig]⟩, 1000000, 9200000, 100000, 24⟩ 9300000 noFault
      = .ok [Output.sellLine 7 1000 9000000 9300000 286050] ∧
    (-2251799813685248 < (9300000 : Int) → (9300000 : Int) < 2251799813685248 →
      fee 9300000 = feeSpec 9300000) ∧
    (IsInt64 (9300000 - 9000000) → IsInt64 (9300000 - 9000000 - fee 9300000) →
      sub64 (sub64 9300000 9000000) (fee 9300000) = 9300000 - 9000000 - fee 9300000)) :=
  ⟨by decide, by decide, by decide,
    profit_computation ⟨⟨[⟨7, 9000000, 1000, 0⟩], [seedConfig]⟩, 1000000, 9200000, 100000, 24⟩
      9300000 ⟨7, 9000000, 1000, 0⟩ (by decide)⟩

/-- C6 (a feed error skips the iteration).  When `GetTicker` returns an error the
iteration prints the two lines of lines 106 and 109 and nothing else, whatever
the store would have answered; the state, with the store and the four
configuration values, is unchanged; and the loop goes on with the next input. -/
theorem feed_error_skips (s : State) (feed : FeedResult) (io : StoreCalls) (e : String)
    (rest : List (FeedResult × StoreCalls)) (h : feed.err = some e) :
    tick s feed io = .next s [Output.tickerLine feed, Output.errLine e] ∧
    (tick s feed io).buys = false ∧
    run s ((feed, io) :: rest) = run s rest ∧
    thresholds s ((feed, io) :: rest) = s.buyrate :: thresholds s rest := by
  have ht : tick s feed io = .next s [Output.tickerLine feed, Output.errLine e] := by
    unfold tick
    rw [h]
  refine ⟨ht, ?_, ?_, ?_⟩
  · rw [ht]
    rfl
  · simp only [run, ht]
  · simp only [thresholds, ht]

/-- C6 on a concrete failing feed: even with every store call set to fail, the
iteration ends in the sleep with the state untouched. -/
theorem feed_error_skips_witness :
    (⟨(quote 0).ticker, some "timeout"⟩ : FeedResult).err = some "timeout" ∧
    (tick threeLots ⟨(quote 0).ticker, some "timeout"⟩ ⟨some "a", some "b", some "c", some "d"⟩ =
        .next threeLots [Output.tickerLine ⟨(quote 0).ticker, some "timeout"⟩, Output.errLine "timeout"] ∧
      (tick threeLots ⟨(quote 0).ticker, some "timeout"⟩ ⟨some "a", some "b", some "c", some "d"⟩).buys
        = false ∧
      run threeLots [(⟨(quote 0).ticker, some "timeout"⟩, ⟨some "a", some "b", some "c", some "d"⟩)]
        = run threeLots [] ∧
      thresholds threeLots [(⟨(quote 0).ticker, some "timeout"⟩, ⟨some "a", some "b", some "c", some "d"⟩)]
        = threeLots.buyrate :: thresholds threeLots []) :=
  ⟨rfl, feed_error_skips threeLots ⟨(quote 0).ticker, some "timeout"⟩
    ⟨some "a", some "b", some "c", some "d"⟩ "timeout" [] rfl⟩

/-! ## Runs and the threshold -/

/-- One completed iteration under a non-negative margin: the threshold does not
rise, the margin stays, and a changed threshold is the price of the iteration. -/
theorem tick_buyrate_le (s : State) (feed : FeedResult) (io : StoreCalls) (s2 : State)
    (out : List Output) (hm : 0 ≤ s.amount) (hb : IsInt64 (s.buyrate - s.amount))
    (h : tick s feed io = .next s2 out) :
    s2.buyrate ≤ s.buyrate ∧ s2.amount = s.amount ∧
      (s2.buyrate = s.buyrate ∨ (feed.err = none ∧ s2.buyrate = lastOf feed.ticker)) := by
  cases hf : feed.err with
  | some e =>
    unfold tick at h
    rw [hf] at h
    simp only [Outcome.next.injEq] at h
    rw [← h.1]
    exact ⟨le_refl _, rfl, Or.inl rfl⟩
  | none =>
    obtain ⟨sold, _, hs2, _⟩ := tick_next_priced s feed io s2 out hf h
    rw [hs2]
    unfold evalBuy
    rw [sub64_of_isInt64 _ _ hb]
    split
    · refine ⟨?_, rfl, Or.inr ⟨rfl, rfl⟩⟩
      show lastOf feed.ticker ≤ s.buyrate
      omega
    · exact ⟨le_refl _, rfl, Or.inl rfl⟩

/-- C2, as amended (threshold monotonicity).  When `amount` (the lot margin) is
non-negative and neither `buyrate - amount` at the start nor `last - amount` for
any obtained price leaves the 64-bit range, the `buyrate` after every completed
iteration of a run is at most the `buyrate` before it. -/
theorem threshold_monotone (s : State) (inputs : List (FeedResult × StoreCalls))
    (hm : 0 ≤ s.amount) (hb : IsInt64 (s.buyrate - s.amount))
    (hp : ∀ i ∈ inputs, i.1.err = none → IsInt64 (lastOf i.1.ticker - s.amount)) :
    List.Chain (fun before after => after ≤ before) s.buyrate (thresholds s inputs) := by
  induction inputs generalizing s with
  | nil => exact List.Chain.nil
  | cons i rest ih =>
    unfold thresholds
    cases ht : tick s i.1 i.2 with
    | fatal msg out => exact List.Chain.nil
    | next s2 out =>
      obtain ⟨hle, ham, hcase⟩ := tick_buyrate_le s i.1 i.2 s2 out hm hb ht
      refine List.Chain.cons hle (ih s2 (by rw [ham]; exact hm) ?_ ?_)
      · rcases hcase with heq | ⟨hf, heq⟩
        · rw [heq, ham]
          exact hb
        · rw [heq, ham]
          exact hp i (List.mem_cons_self _ _) hf
      · intro j hj hf
        rw [ham]
        exact hp j (List.mem_cons_of_mem _ hj) hf

/-- C2 as amended, on a run from the seed row with prices 9,100,000, 9,200,000
and 9,000,000: the thresholds are 9,100,000, 9,100,000, 9,000,000. -/
theorem threshold_monotone_witness :
    (0 ≤ seedState.amount ∧ IsInt64 (seedState.buyrate - seedState.amount) ∧
      (∀ i ∈ [(quote 9100000, noFault), (quote 9200000, noFault), (quote 9000000, noFault)],
        i.1.err = none → IsInt64 (lastOf i.1.ticker - seedState.amount))) ∧
    thresholds seedState [(quote 9100000, noFault), (quote 9200000, noFault), (quote 9000000, noFault)]
      = [9100000, 9100000, 9000000] ∧
    List.Chain (fun before after => after ≤ before) seedState.buyrate
      (thresholds seedState
        [(quote 9100000, noFault), (quote 9200000, noFault), (quote 9000000, noFault)]) :=
  ⟨⟨by decide, by decide, by decide⟩, by decide,
    threshold_monotone seedState
      [(quote 9100000, noFault), (quote 9200000, noFault), (quote 9000000, noFault)]
      (by decide) (by decide) (by decide)⟩

/-- C2, counterexample.  With `amount = -100000` the trigger lies above the
threshold: from `buyrate = 9200000` the price 9,250,000 fires the buy and the
threshold rises to 9,250,000. -/
theorem threshold_can_rise :
    tick { seedState with amount := -100000 } (quote 9250000) noFault =
      .next { seedState with amount := -100000, buyrate := 9250000 }
        [Output.tickerLine (quote 9250000), Output.buyLine 9250000] ∧
    thresholds { seedState with amount := -100000 } [(quote 9250000, noFault)] = [9250000] ∧
    ¬ List.Chain (fun before after => after ≤ before) ({ seedState with amount := -100000 } : State).buyrate
      (thresholds { seedState with amount := -100000 } [(quote 9250000, noFault)]) := by
  refine ⟨by decide, by decide, ?_⟩
  rw [show thresholds { seedState with amount := -100000 } [(quote 9250000, noFault)] = [9250000]
    by decide]
  intro h
  have := List.rel_of_chain_cons h
  revert this
  decide

/-! ## What an iteration leaves untouched -/

/-- A completed iteration changes at most `buyrate`. -/
theorem tick_frame (s : State) (feed : FeedResult) (io : StoreCalls) (s2 : State)
    (out : List Output) (h : tick s feed io = .next s2 out) :
    s2.db = s.db ∧ s2.usdbalance = s.usdbalance ∧ s2.amount = s.amount ∧ s2.swait = s.swait := by
  cases hf : feed.err with
  | some e =>
    unfold tick at h
    rw [hf] at h
    simp only [Outcome.next.injEq] at h
    rw [← h.1]
    exact ⟨rfl, rfl, rfl, rfl⟩
  | none =>
    obtain ⟨sold, _, hs2, _⟩ := tick_next_priced s feed io s2 out hf h
    rw [hs2]
    unfold evalBuy
    split <;> exact ⟨rfl, rfl, rfl, rfl⟩

/-- A "Going to sell" line of a completed iteration names the rate of the row the
query returned. -/
theorem sellLine_of_tick (s : State) (feed : FeedResult) (io : StoreCalls) (s2 : State)
    (out : List Output) (id am rate last pr : Int) (h : tick s feed io = .next s2 out)
    (hmem : Output.sellLine id am rate last pr ∈ out) :
    feed.err = none ∧ last = lastOf feed.ticker ∧
      ∃ l : Lot, sellQuery s.db (sub64 (lastOf feed.ticker) s.amount) = [l] ∧ l.rate = rate := by
  cases hf : feed.err with
  | some e =>
    unfold tick at h
    rw [hf] at h
    simp only [Outcome.next.injEq] at h
    rw [← h.2] at hmem
    simp at hmem
  | none =>
    obtain ⟨sold, hsold, _, hout⟩ := tick_next_priced s feed io s2 out hf h
    rw [hout] at hmem
    have hbuy : Output.sellLine id am rate last pr ∉ (evalBuy s (lastOf feed.ticker)).2 := by
      unfold evalBuy
      split <;> simp
    rcases evalSell_out s _ io sold hsold with rfl | ⟨l, hq, rfl⟩
    · simp at hmem
      exact absurd hmem hbuy
    · simp only [List.mem_cons, List.mem_append, List.mem_singleton, reduceCtorEq, false_or,
        List.not_mem_nil, or_false] at hmem
      rcases hmem with hmem | hmem
      · simp only [Output.sellLine.injEq] at hmem
        exact ⟨rfl, hmem.2.2.2.1, l, hq, hmem.2.2.1.symm⟩
      · exact absurd hmem hbuy

/-- C8 (report-only iterations).  A completed iteration leaves the store (so the
lot table), `usdbalance`, `amount` and `swait` as they were: only `buyrate` can
differ.  A reported lot stays in the table: an iteration that follows with the
same price, the same margin and the same lots (in any storage order) and whose
store calls succeed reports a sale of a lot of the same rate. -/
theorem report_only (s : State) (feed : FeedResult) (io : StoreCalls) (s2 : State)
    (out : List Output) (h : tick s feed io = .next s2 out) :
    s2.db = s.db ∧ s2.usdbalance = s.usdbalance ∧ s2.amount = s.amount ∧ s2.swait = s.swait ∧
    (∀ id am rate pr, Output.sellLine id am rate (lastOf feed.ticker) pr ∈ out →
      ∀ s3 : State, s3.amount = s2.amount → s3.db.btcprice.Perm s2.db.btcprice →
        ∃ s4 out3 id3 am3 pr3, tick s3 feed noFault = .next s4 out3 ∧
          Output.sellLine id3 am3 rate (lastOf feed.ticker) pr3 ∈ out3) := by
  obtain ⟨hdb, hus, ham, hsw⟩ := tick_frame s feed io s2 out h
  refine ⟨hdb, hus, ham, hsw, ?_⟩
  intro id am rate pr hmem s3 ham3 hperm
  obtain ⟨hf, _, l, hq, hrate⟩ := sellLine_of_tick s feed io s2 out id am rate _ pr h hmem
  have hthr : sub64 (lastOf feed.ticker) s3.amount = sub64 (lastOf feed.ticker) s.amount := by
    rw [ham3, ham]
  rcases sellQuery_spec s.db (sub64 (lastOf feed.ticker) s.amount) with
    ⟨hnil, _⟩ | ⟨l1, hl1, hmem1, hle1, hmin1⟩
  · rw [hnil] at hq
    cases hq
  have hll : l1 = l := by simpa [hl1] using hq
  subst hll
  have hmem3 : ∀ x, x ∈ s3.db.btcprice ↔ x ∈ s.db.btcprice := by
    intro x
    rw [hperm.mem_iff, hdb]
  rcases sellQuery_spec s3.db (sub64 (lastOf feed.ticker) s.amount) with
    ⟨_, hnone⟩ | ⟨l3, hl3, hm3, hle3, hmin3⟩
  · exact absurd hle1 (hnone l1 ((hmem3 l1).2 hmem1))
  · have hsame : l3.rate = l1.rate :=
      le_antisymm (hmin3 l1 ((hmem3 l1).2 hmem1) hle1) (hmin1 l3 ((hmem3 l3).1 hm3) hle3)
    refine ⟨(evalBuy s3 (lastOf feed.ticker)).1,
      Output.tickerLine feed ::
        ([Output.sellLine l3.id l3.amount l3.rate (lastOf feed.ticker)
            (sub64 (sub64 (lastOf feed.ticker) l3.rate) (fee (lastOf feed.ticker)))] ++
          (evalBuy s3 (lastOf feed.ticker)).2),
      l3.id, l3.amount,
      sub64 (sub64 (lastOf feed.ticker) l3.rate) (fee (lastOf feed.ticker)), ?_, ?_⟩
    · unfold tick
      rw [hf]
      simp only [evalSell_noFault, hthr, hl3]
    · rw [← hrate, ← hsame]
      simp

/-- C8 on the three lots at price 9,200,000: the iteration reports the lot of rate
9,000,000 and changes nothing, and the next iteration reports that rate again. -/
theorem report_only_witness :
    tick threeLots (quote 9200000) noFault =
      .next threeLots [Output.tickerLine (quote 9200000),
        Output.sellLine 2 1000 9000000 9200000 186200] ∧
    (threeLots.db = threeLots.db ∧ threeLots.usdbalance = threeLots.usdbalance ∧
      threeLots.amount = threeLots.amount ∧ threeLots.swait = threeLots.swait ∧
      (∀ id am rate pr, Output.sellLine id am rate (lastOf (quote 9200000).ticker) pr ∈
          [Output.tickerLine (quote 9200000), Output.sellLine 2 1000 9000000 9200000 186200] →
        ∀ s3 : State, s3.amount = threeLots.amount →
          s3.db.btcprice.Perm threeLots.db.btcprice →
          ∃ s4 out3 id3 am3 pr3, tick s3 (quote 9200000) noFault = .next s4 out3 ∧
            Output.sellLine id3 am3 rate (lastOf (quote 9200000).ticker) pr3 ∈ out3)) :=
  ⟨by decide, report_only threeLots (quote 9200000) noFault threeLots
    [Output.tickerLine (quote 9200000), Output.sellLine 2 1000 9000000 9200000 186200] (by decide)⟩

/-! ## The threshold and the store -/

/-- A completed iteration that printed "Going to buy" had a price at or below the
trigger and holds that price as its `buyrate`. -/
theorem buys_next (s : State) (feed : FeedResult) (io : StoreCalls) (s2 : State)
    (out : List Output) (h : tick s feed io = .next s2 out)
    (hb : (tick s feed io).buys = true) :
    feed.err = none ∧ lastOf feed.ticker ≤ sub64 s.buyrate s.amount ∧
      s2.buyrate = lastOf feed.ticker := by
  cases hf : feed.err with
  | some e =>
    unfold tick at hb
    rw [hf] at hb
    simp [Outcome.buys] at hb
  | none =>
    obtain ⟨sold, hsold, hs2, hout⟩ := tick_next_priced s feed io s2 out hf h
    by_cases hc : lastOf feed.ticker ≤ sub64 s.buyrate s.amount
    · refine ⟨rfl, hc, ?_⟩
      rw [hs2]
      simp [evalBuy, hc]
    · exfalso
      rw [h, hout] at hb
      rcases evalSell_out s _ io sold hsold with rfl | ⟨l, _, rfl⟩ <;>
        simp [Outcome.buys, evalBuy, hc] at hb

/-- C5, as amended (the threshold lives in memory).  In an iteration in which the
buy fires at price `p` the local `buyrate` becomes `p`, and that local value is
what the trigger of the next iteration is computed from; the store is not
written: the `config` table is the one from before the iteration, and loading the
configuration from the store gives what it gave before. -/
theorem threshold_kept_in_memory (s : State) (feed : FeedResult) (io : StoreCalls) (s2 : State)
    (out : List Output) (h : tick s feed io = .next s2 out)
    (hb : (tick s feed io).buys = true) :
    s2.buyrate = lastOf feed.ticker ∧
    (evalBuy s2 (lastOf feed.ticker)).1 = s2 ∧
    (∀ last2, (last2 ≤ sub64 (lastOf feed.ticker) s2.amount ↔ (evalBuy s2 last2).2 ≠ [])) ∧
    s2.db.config = s.db.config ∧
    (∀ lc, loadConfig s2.db lc = loadConfig s.db lc) := by
  obtain ⟨_, _, hrate⟩ := buys_next s feed io s2 out h hb
  obtain ⟨hdb, _, _, _⟩ := tick_frame s feed io s2 out h
  refine ⟨hrate, ?_, ?_, by rw [hdb], fun lc => by rw [hdb]⟩
  · unfold evalBuy
    split
    · rw [← hrate]
    · rfl
  · intro last2
    unfold evalBuy
    rw [hrate]
    split <;> simp_all

/-- C5 as amended, from the seed row at price 9,100,000. -/
theorem threshold_kept_in_memory_witness :
    (tick seedState (quote 9100000) noFault =
        .next { seedState with buyrate := 9100000 }
          [Output.tickerLine (quote 9100000), Output.buyLine 9100000] ∧
      (tick seedState (quote 9100000) noFault).buys = true) ∧
    (({ seedState with buyrate := 9100000 } : State).buyrate = lastOf (quote 9100000).ticker ∧
      (evalBuy { seedState with buyrate := 9100000 } (lastOf (quote 9100000).ticker)).1
        = { seedState with buyrate := 9100000 } ∧
      (∀ last2, (last2 ≤ sub64 (lastOf (quote 9100000).ticker)
          ({ seedState with buyrate := 9100000 } : State).amount ↔
        (evalBuy { seedState with buyrate := 9100000 } last2).2 ≠ [])) ∧
      ({ seedState with buyrate := 9100000 } : State).db.config = seedState.db.config ∧
      (∀ lc, loadConfig ({ seedState with buyrate := 9100000 } : State).db lc
        = loadConfig seedState.db lc)) :=
  ⟨⟨by decide, by decide⟩,
    threshold_kept_in_memory seedState (quote 9100000) noFault { seedState with buyrate := 9100000 }
      [Output.tickerLine (quote 9100000), Output.buyLine 9100000] (by decide) (by decide)⟩

/-- C5, counterexample.  From the seed row the price 9,100,000 fires the buy; after
the iteration the `config` row of the store still holds `buyrate = 9200000`, and
loading the configuration again gives the threshold 9,200,000, not 9,100,000. -/
theorem stored_threshold_stale :
    tick seedState (quote 9100000) noFault =
      .next { seedState with buyrate := 9100000 }
        [Output.tickerLine (quote 9100000), Output.buyLine 9100000] ∧
    (tick seedState (quote 9100000) noFault).buys = true ∧
    configQuery ({ seedState with buyrate := 9100000 } : State).db = [seedConfig] ∧
    seedConfig.buyrate = 9200000 ∧
    loadConfig ({ seedState with buyrate := 9100000 } : State).db ⟨none, none, none⟩
      = .ok seedState ∧
    seedState.buyrate ≠ 9100000 :=
  ⟨by decide, by decide, by decide, by decide, rfl, by decide⟩

/-! ## Store failures -/

/-- The store failures the loop body looks at end the process: a failed
`Prepare`, a failed `Query`, and a failed `Scan` of a returned row. -/
theorem store_error_fatal (s : State) (feed : FeedResult) (io : StoreCalls) (e : String)
    (hf : feed.err = none) :
    (io.prepareErr = some e → tick s feed io = .fatal e [Output.tickerLine feed]) ∧
    (io.prepareErr = none → io.queryErr = some e →
      tick s feed io = .fatal e [Output.tickerLine feed]) ∧
    (io.prepareErr = none → io.queryErr = none → io.nextErr = none → io.scanErr = some e →
      sellQuery s.db (sub64 (lastOf feed.ticker) s.amount) ≠ [] →
      tick s feed io = .fatal e [Output.tickerLine feed]) := by
  rcases io with ⟨p, q, n, sc⟩
  refine ⟨?_, ?_, ?_⟩
  · intro hp
    simp only at hp
    subst hp
    simp [tick, hf, evalSell]
  · intro hp hq
    simp only at hp hq
    subst hp hq
    simp [tick, hf, evalSell]
  · intro hp hq hn hsc hrows
    simp only at hp hq hn hsc
    subst hp hq hn hsc
    cases hrow : sellQuery s.db (sub64 (lastOf feed.ticker) s.amount) with
    | nil => exact absurd hrow hrows
    | cons l rest => simp [tick, hf, evalSell, hrow]

/-- A failure while the `config` row is read at start-up ends the process before
the loop: the query failing, no row being delivered, or the scan failing. -/
theorem config_read_error_fatal (opts : Opts) (env : StartEnv) (e : String)
    (hread : env.load.queryErr = some e ∨ env.load.nextErr = some e ∨
      env.load.scanErr = some e) :
    ∀ s, startWith opts env ≠ .loop s := by
  have hload : ∀ db, ∃ msg, loadConfig db env.load = .error msg := by
    intro db
    unfold loadConfig
    rcases hl : env.load with ⟨q, n, sc⟩
    rw [hl] at hread
    simp only at hread
    cases q with
    | some a => exact ⟨a, rfl⟩
    | none =>
      cases n with
      | some a => exact ⟨a, rfl⟩
      | none =>
        cases hc : configQuery db with
        | nil => exact ⟨_, rfl⟩
        | cons row rest =>
          cases sc with
          | some a => exact ⟨a, rfl⟩
          | none => simp at hread
  have hopen : ∀ b s, openAndLoad b env ≠ .loop s := by
    intro b s
    unfold openAndLoad
    split
    · simp
    · split
      · obtain ⟨msg, hmsg⟩ := hload env.db
        rw [hmsg]
        simp
      · split
        · simp
        · obtain ⟨msg, hmsg⟩ := hload ⟨[], [seedConfig]⟩
          rw [hmsg]
          simp
  intro s
  unfold startWith
  simp only
  split
  · simp
  · split
    · simp
    · exact hopen _ s

/-- An error met while stepping to the first row is not looked at: whatever the
state and the price, the iteration reports no sale, runs the buy evaluation and
ends in the sleep. -/
theorem step_error_continues (s : State) (feed : FeedResult) (e : String) (sc : Option String)
    (hf : feed.err = none) :
    tick s feed ⟨none, none, some e, sc⟩ =
      .next (evalBuy s (lastOf feed.ticker)).1
        (Output.tickerLine feed :: (evalBuy s (lastOf feed.ticker)).2) := by
  simp [tick, hf, evalSell]

/-- C7, the failing case.  With lots that qualify for a sale and a price that
fires the buy, an error met while stepping to the first row (`rows.Next()`
reports `false`, `rows.Err()` is never consulted) does not end the process: no
sale is reported, the buy evaluation runs and the iteration ends in the sleep.
Without the error the same iteration reports the lot of rate 9,000,000. -/
theorem step_error_not_fatal :
    tick threeLots (quote 9100000) ⟨none, none, some "database is locked", none⟩ =
      .next { threeLots with buyrate := 9100000 }
        [Output.tickerLine (quote 9100000), Output.buyLine 9100000] ∧
    tick threeLots (quote 9100000) noFault =
      .next { threeLots with buyrate := 9100000 }
        [Output.tickerLine (quote 9100000), Output.sellLine 2 1000 9000000 9100000 86350,
          Output.buyLine 9100000] := by
  constructor <;> decide

/-! ## Start-up settings -/

theorem settingsMissing_iff (c : Settings) :
    settingsMissing c = true ↔ (c.database = "" ∨ c.key = "" ∨ c.secret = "") := by
  unfold settingsMissing
  simp [Bool.or_eq_true, or_assoc]

/-- Once the store is being opened the process no longer ends "before the open":
lines 59 to 100 end in a `log.Fatal` after `sql.Open`, in the `return` of line
77, or in the loop. -/
theorem openAndLoad_after_open (dbExists : Bool) (env : StartEnv) :
    (openAndLoad dbExists env).diedBeforeOpen = false ∧
    (∀ msg, openAndLoad dbExists env ≠ .fatalBeforeOpen msg) := by
  unfold openAndLoad
  split
  · exact ⟨rfl, fun _ => by simp⟩
  · split
    · split <;> exact ⟨rfl, fun _ => by simp⟩
    · split
      · exact ⟨rfl, fun _ => by simp⟩
      · split <;> exact ⟨rfl, fun _ => by simp⟩

/-- The settings of start-up.  Each of the three settings is the flag when the
flag is non-empty and otherwise the environment variable `{Prefix}DATABASE`,
`{Prefix}BITTREX_KEY` or `{Prefix}BITTREX_SECRET`.  The flags being parsed,
start-up ends in the `log.Fatal` of line 54 if and only if one of the three
resolved settings is empty; and the process ends before `sql.Open` if and only
if a resolved setting is empty or `os.Stat` fails with an error that is not a
not-exist error. -/
theorem settings_check (opts : Opts) (env : StartEnv) :
    (resolveSettings opts env.getenv).database =
      (if opts.Database ≠ "" then opts.Database else env.getenv (opts.Prefix ++ "DATABASE")) ∧
    (resolveSettings opts env.getenv).key =
      (if opts.Key ≠ "" then opts.Key else env.getenv (opts.Prefix ++ "BITTREX_KEY")) ∧
    (resolveSettings opts env.getenv).secret =
      (if opts.Secret ≠ "" then opts.Secret else env.getenv (opts.Prefix ++ "BITTREX_SECRET")) ∧
    ((∃ msg, startWith opts env = .fatalBeforeOpen msg) ↔
      ((resolveSettings opts env.getenv).database = "" ∨
        (resolveSettings opts env.getenv).key = "" ∨
        (resolveSettings opts env.getenv).secret = "")) ∧
    ((startWith opts env).diedBeforeOpen = true ↔
      (((resolveSettings opts env.getenv).database = "" ∨
        (resolveSettings opts env.getenv).key = "" ∨
        (resolveSettings opts env.getenv).secret = "") ∨ ∃ e, env.stat = .otherErr e)) ∧
    (start (.ok opts) env = startWith opts env) := by
  refine ⟨rfl, rfl, rfl, ?_, ?_, rfl⟩
  · rw [← settingsMissing_iff]
    unfold startWith
    simp only
    constructor
    · rintro ⟨msg, hmsg⟩
      by_contra hno
      rw [if_neg hno] at hmsg
      split at hmsg
      · cases hmsg
      · exact (openAndLoad_after_open _ env).2 msg hmsg
    · intro hmiss
      rw [if_pos hmiss]
      exact ⟨_, rfl⟩
  · rw [← settingsMissing_iff]
    unfold startWith
    simp only
    by_cases hmiss : settingsMissing (resolveSettings opts env.getenv) = true
    · rw [if_pos hmiss]
      exact ⟨fun _ => Or.inl hmiss, fun _ => rfl⟩
    · rw [if_neg hmiss]
      cases hst : env.stat with
      | info isDir =>
        simp only [fileExists, (openAndLoad_after_open _ env).1]
        simp [hmiss]
      | notExist =>
        simp only [fileExists, (openAndLoad_after_open _ env).1]
        simp [hmiss]
      | otherErr e =>
        simp [fileExists, Startup.diedBeforeOpen]

/-- C9, the failing case.  With the three settings given by flags (all non-empty,
so the check of line 53 passes) and a database path whose parent is a regular
file, `os.Stat` fails with an error that is not a not-exist error, `fileExists`
calls `IsDir` on the `nil` info and the process ends in a panic at line 57,
before `sql.Open`.  With the same flags and a path that does not exist start-up
reaches the loop with the seed row. -/
theorem stat_error_panics :
    resolveSettings flagsUnderFile statFails.getenv = ⟨"feed.txt/x.db", "FK", "FS"⟩ ∧
    settingsMissing (resolveSettings flagsUnderFile statFails.getenv) = false ∧
    fileExists statFails.stat = none ∧
    start (.ok flagsUnderFile) statFails =
      .panicBeforeOpen "runtime error: invalid memory address or nil pointer dereference" ∧
    (start (.ok flagsUnderFile) statFails).diedBeforeOpen = true ∧
    start (.ok flagsUnderFile) { statFails with stat := .notExist } = .loop seedState := by
  refine ⟨by decide, by decide, rfl, by decide, by decide, by decide⟩

/-! ## Profit of a reported sale -/

/-- The row a non-empty sale query returns has a rate at most the threshold. -/
theorem sellQuery_rate_le (db : Store) (thr : Int) (l : Lot) (hsel : sellQuery db thr = [l]) :
    l.rate ≤ thr := by
  rcases sellQuery_spec db thr with ⟨hnil, _⟩ | ⟨l2, hl2, _, hle2, _⟩
  · rw [hnil] at hsel
    cases hsel
  · have hll : l2 = l := by simpa [hl2] using hsel
    rw [← hll]
    exact hle2

/-- With a non-negative price below `2 ^ 51`, a non-negative margin and a selected
lot of non-negative rate, none of the subtractions of the sale evaluation leaves
the 64-bit range. -/
theorem subtractions_in_range (s : State) (last : Int) (l : Lot)
    (hsel : sellQuery s.db (sub64 last s.amount) = [l])
    (hlast : 0 ≤ last) (hlt : last < 2251799813685248)
    (ham : 0 ≤ s.amount) (ham2 : s.amount ≤ maxInt64) (hrate : 0 ≤ l.rate) :
    IsInt64 (last - s.amount) ∧ IsInt64 (last - l.rate) ∧ IsInt64 (last - l.rate - fee last) := by
  have h1 : IsInt64 (last - s.amount) := by
    unfold IsInt64 minInt64 maxInt64 at *
    omega
  have hle := sellQuery_rate_le s.db _ l hsel
  rw [sub64_of_isInt64 _ _ h1] at hle
  have hfee : fee last = (15 * last) / 10000 := by
    rw [fee_eq_feeSpec last (by omega) hlt]
    unfold feeSpec
    exact Int.tdiv_eq_ediv (by omega) (by omega)
  refine ⟨h1, ?_, ?_⟩
  · unfold IsInt64 minInt64 maxInt64 at *
    omega
  · rw [hfee]
    unfold IsInt64 minInt64 maxInt64 at *
    omega

/-- C10 (profit lower bound).  For a selected lot, when the three subtractions
`last - amount`, `last - rate` and `last - rate - fee` stay in the 64-bit range,
the reported profit is at least `amount - fee`, hence non-negative when
`amount ≥ fee`; and there is a sale reported with `amount < fee` and a negative
profit (margin 10,000, price 9,000,000, lot rate 8,990,000: profit -3,500). -/
theorem profit_lower_bound :
    (∀ (s : State) (last : Int) (l : Lot),
      sellQuery s.db (sub64 last s.amount) = [l] →
      IsInt64 (last - s.amount) → IsInt64 (last - l.rate) → IsInt64 (last - l.rate - fee last) →
      evalSell s last noFault = .ok [Output.sellLine l.id l.amount l.rate last
        (sub64 (sub64 last l.rate) (fee last))] ∧
      s.amount - fee last ≤ sub64 (sub64 last l.rate) (fee last) ∧
      (fee last ≤ s.amount → 0 ≤ sub64 (sub64 last l.rate) (fee last))) ∧
    (∃ (s : State) (last : Int) (l : Lot),
      sellQuery s.db (sub64 last s.amount) = [l] ∧ s.amount < fee last ∧
      evalSell s last noFault = .ok [Output.sellLine l.id l.amount l.rate last
        (sub64 (sub64 last l.rate) (fee last))] ∧
      sub64 (sub64 last l.rate) (fee last) < 0) := by
  constructor
  · intro s last l hsel h1 h2 h3
    have hle : l.rate ≤ sub64 last s.amount := by
      rcases sellQuery_spec s.db (sub64 last s.amount) with ⟨hnil, _⟩ | ⟨l2, hl2, _, hle2, _⟩
      · rw [hnil] at hsel
        cases hsel
      · have hll : l2 = l := by simpa [hl2] using hsel
        rw [← hll]
        exact hle2
    rw [sub64_of_isInt64 _ _ h1] at hle
    refine ⟨by rw [evalSell_noFault, hsel], ?_⟩
    rw [sub64_of_isInt64 _ _ h2, sub64_of_isInt64 _ _ h3]
    exact ⟨by omega, fun _ => by omega⟩
  · refine ⟨⟨⟨[⟨1, 8990000, 1000, 0⟩], [seedConfig]⟩, 1000000, 9200000, 10000, 24⟩, 9000000,
      ⟨1, 8990000, 1000, 0⟩, by decide, by decide, rfl, by decide⟩

/-- C10 on the lot of rate 9,000,000 at price 9,200,000 with margin 50,000: the
fee is 13,800 and the profit 186,200 is at least 50,000 - 13,800. -/
theorem profit_lower_bound_witness :
    (sellQuery threeLots.db (sub64 9200000 threeLots.amount) = [⟨2, 9000000, 1000, 0⟩] ∧
      IsInt64 (9200000 - threeLots.amount) ∧ IsInt64 (9200000 - 9000000) ∧
      IsInt64 (9200000 - 9000000 - fee 9200000)) ∧
    fee 9200000 = 13800 ∧
    (evalSell threeLots 9200000 noFault = .ok [Output.sellLine 2 1000 9000000 9200000 186200] ∧
      threeLots.amount - fee 9200000 ≤ 186200 ∧
      (fee 9200000 ≤ threeLots.amount → (0 : Int) ≤ 186200)) :=
  ⟨⟨by decide, by decide, by decide, by decide⟩, by decide,
    profit_lower_bound.1 threeLots 9200000 ⟨2, 9000000, 1000, 0⟩
      (by decide) (by decide) (by decide) (by decide)⟩

end Btcbot
